import Mathlib

/-!
Verification development for the sb_editor configuration editor.

The repository's core logic (symbolic path resolution, the patch writer,
the key enumerator and the functional classifier, all in `api.go` with the
static registry in a support file) is shallowly embedded below.  JSON
documents are modelled as trees (`Json`); the byte level is modelled by a
strict JSON reader (`parseJson`) and a compact renderer (`serialize`).
The gjson/sjson accessor library is modelled on the subset of its path
syntax the handlers exercise: dot-separated segments, first-occurrence key
lookup, numeric array indices.  Wildcard matching, backslash escapes in
paths, gjson's best-effort scanning of malformed buffers and Go's float
re-formatting of numeric literals sit below the granularity of the model
and are noted at the definitions they would affect.
-/

namespace SbEditor

/-- Whitespace accepted between JSON tokens (RFC 8259, also what
gjson.Valid skips). -/
def isJsonWs (c : Char) : Bool :=
  c = ' ' || c = '\t' || c = '\n' || c = '\r'

/-- JSON values.  Object member lists keep document order and may contain
duplicate keys, mirroring the byte-level view taken by the accessor
library.  Numbers keep their literal text (Go would re-format through
float64; no claim depends on that). -/
inductive Json where
  | null : Json
  | bool (b : Bool) : Json
  | num (lit : String) : Json
  | str (s : String) : Json
  | arr (elems : List Json) : Json
  | obj (kvs : List (String × Json)) : Json

/-- Decimal digits of a natural number, most significant first; the fuel
argument only bounds recursion depth. -/
def natToDecAux : Nat → Nat → List Char
  | 0, _ => []
  | Nat.succ fuel, n =>
    if n = 0 then []
    else natToDecAux fuel (n / 10) ++ [Char.ofNat (48 + n % 10)]

/-- Decimal rendering of a natural number (Go's %d verb and strconv). -/
def natToDec (n : Nat) : String :=
  if n = 0 then "0" else ⟨natToDecAux (n + 1) n⟩

/-- Numeric value of a digit string (used to relate renderings back to
numbers and to model gjson's array-index parsing). -/
def decValue (l : List Char) : Nat :=
  l.foldl (fun a c => a * 10 + (c.toNat - 48)) 0

/-- Hexadecimal digit used when escaping control characters. -/
def hexDigitChar (n : Nat) : Char :=
  if n < 10 then Char.ofNat (48 + n) else Char.ofNat (87 + n)

/-- JSON string escaping applied when a string value is rendered. -/
def escChar (c : Char) : List Char :=
  if c = '"' then ['\\', '"']
  else if c = '\\' then ['\\', '\\']
  else if c = '\n' then ['\\', 'n']
  else if c = '\t' then ['\\', 't']
  else if c = '\r' then ['\\', 'r']
  else if c.toNat < 0x20 then
    ['\\', 'u', '0', '0', hexDigitChar (c.toNat / 16), hexDigitChar (c.toNat % 16)]
  else [c]

/-- Escape the body of a JSON string literal. -/
def escapeString (s : String) : String :=
  ⟨s.data.flatMap escChar⟩

/-- Comma-join a list of rendered fragments. -/
def joinComma : List String → String
  | [] => ""
  | [s] => s
  | s :: rest => s ++ "," ++ joinComma rest

/-- Depth-fuelled compact rendering of a JSON tree; the fuel only bounds
the nesting depth so that the recursion is structural (and hence
kernel-evaluable). -/
def serializeF : Nat → Json → String
  | 0, _ => ""
  | Nat.succ _, Json.null => "null"
  | Nat.succ _, Json.bool true => "true"
  | Nat.succ _, Json.bool false => "false"
  | Nat.succ _, Json.num lit => lit
  | Nat.succ _, Json.str s => "\"" ++ escapeString s ++ "\""
  | Nat.succ fuel, Json.arr es => "[" ++ joinComma (es.map (serializeF fuel)) ++ "]"
  | Nat.succ fuel, Json.obj kvs =>
    "\x7b"
      ++ joinComma (kvs.map (fun kv => "\"" ++ escapeString kv.1 ++ "\":" ++ serializeF fuel kv.2))
      ++ "\x7d"

/-- Compact byte rendering of a JSON tree (the serialized form the model
persists; sjson would preserve surrounding formatting byte-for-byte, which
is below the granularity of the tree model).  The fixed fuel bounds only
the nesting depth, at a value far beyond any document the handlers
process; below that depth the rendering is exact. -/
def serialize (j : Json) : String :=
  serializeF 1000000 j

/-- Value of a hexadecimal digit, if the character is one. -/
def hexVal (c : Char) : Option Nat :=
  if '0' ≤ c ∧ c ≤ '9' then some (c.toNat - 48)
  else if 'a' ≤ c ∧ c ≤ 'f' then some (c.toNat - 87)
  else if 'A' ≤ c ∧ c ≤ 'F' then some (c.toNat - 55)
  else none

/-- Read the body of a JSON string literal after the opening quote,
decoding escapes; returns the decoded text and the remaining input.
Surrogate-pair recombination of \u escapes is not modelled (no claim
touches it). -/
def pStringBody : List Char → List Char → Option (String × List Char)
  | _, [] => none
  | acc, '"' :: rest => some (⟨acc.reverse⟩, rest)
  | acc, '\\' :: 'u' :: h1 :: h2 :: h3 :: h4 :: rest =>
    match hexVal h1, hexVal h2, hexVal h3, hexVal h4 with
    | some a, some b, some c, some d =>
      pStringBody (Char.ofNat (((a * 16 + b) * 16 + c) * 16 + d) :: acc) rest
    | _, _, _, _ => none
  | acc, '\\' :: e :: rest =>
    if e = '"' then pStringBody ('"' :: acc) rest
    else if e = '\\' then pStringBody ('\\' :: acc) rest
    else if e = '/' then pStringBody ('/' :: acc) rest
    else if e = 'b' then pStringBody ('\x08' :: acc) rest
    else if e = 'f' then pStringBody ('\x0c' :: acc) rest
    else if e = 'n' then pStringBody ('\n' :: acc) rest
    else if e = 'r' then pStringBody ('\r' :: acc) rest
    else if e = 't' then pStringBody ('\t' :: acc) rest
    else none
  | acc, c :: rest =>
    if c.toNat < 0x20 then none else pStringBody (c :: acc) rest

/-- Longest digit run at the head of the input. -/
def spanDigits (l : List Char) : List Char × List Char :=
  (l.takeWhile Char.isDigit, l.dropWhile Char.isDigit)

/-- Integer part of a JSON number (no leading zeros). -/
def pIntPart : List Char → Option (List Char × List Char)
  | [] => none
  | '0' :: rest => some (['0'], rest)
  | c :: rest =>
    if c.isDigit then
      let p := spanDigits rest
      some (c :: p.1, p.2)
    else none

/-- Optional fraction part of a JSON number. -/
def pFrac : List Char → Option (List Char × List Char)
  | '.' :: rest =>
    match spanDigits rest with
    | ([], _) => none
    | (ds, l2) => some ('.' :: ds, l2)
  | l => some ([], l)

/-- Optional exponent part of a JSON number. -/
def pExp : List Char → Option (List Char × List Char)
  | [] => some ([], [])
  | e :: rest =>
    if e = 'e' || e = 'E' then
      let p : List Char × List Char :=
        match rest with
        | '+' :: r => (['+'], r)
        | '-' :: r => (['-'], r)
        | _ => ([], rest)
      match spanDigits p.2 with
      | ([], _) => none
      | (ds, l2) => some (e :: (p.1 ++ ds), l2)
    else some ([], e :: rest)

/-- Lex a JSON number literal; returns its text and the remaining input. -/
def pNum (l : List Char) : Option (List Char × List Char) :=
  let p : List Char × List Char :=
    match l with
    | '-' :: rest => (['-'], rest)
    | _ => ([], l)
  match pIntPart p.2 with
  | none => none
  | some (ip, l2) =>
    match pFrac l2 with
    | none => none
    | some (fp, l3) =>
      match pExp l3 with
      | none => none
      | some (ep, l4) => some (p.1 ++ ip ++ fp ++ ep, l4)

mutual
/-- Strict JSON value reader (fuel-bounded recursive descent); models the
grammar gjson.Valid accepts. -/
def pVal : Nat → List Char → Option (Json × List Char)
  | 0, _ => none
  | Nat.succ fuel, l =>
    match l.dropWhile isJsonWs with
    | 'n' :: 'u' :: 'l' :: 'l' :: rest => some (Json.null, rest)
    | 't' :: 'r' :: 'u' :: 'e' :: rest => some (Json.bool true, rest)
    | 'f' :: 'a' :: 'l' :: 's' :: 'e' :: rest => some (Json.bool false, rest)
    | '"' :: rest => (pStringBody [] rest).map (fun p => (Json.str p.1, p.2))
    | '[' :: rest =>
      match rest.dropWhile isJsonWs with
      | ']' :: rest2 => some (Json.arr [], rest2)
      | _ => (pItems fuel rest).map (fun p => (Json.arr p.1, p.2))
    | '\x7b' :: rest =>
      match rest.dropWhile isJsonWs with
      | '\x7d' :: rest2 => some (Json.obj [], rest2)
      | _ => (pMembers fuel rest).map (fun p => (Json.obj p.1, p.2))
    | c :: rest =>
      if c = '-' || c.isDigit then
        (pNum (c :: rest)).map (fun p => (Json.num ⟨p.1⟩, p.2))
      else none
    | [] => none

/-- Read the comma-separated elements of a non-empty array, including the
closing bracket. -/
def pItems : Nat → List Char → Option (List Json × List Char)
  | 0, _ => none
  | Nat.succ fuel, l =>
    match pVal fuel l with
    | none => none
    | some (v, rest) =>
      match rest.dropWhile isJsonWs with
      | ',' :: rest2 => (pItems fuel rest2).map (fun p => (v :: p.1, p.2))
      | ']' :: rest2 => some ([v], rest2)
      | _ => none

/-- Read the comma-separated members of a non-empty object, including the
closing brace. -/
def pMembers : Nat → List Char → Option (List (String × Json) × List Char)
  | 0, _ => none
  | Nat.succ fuel, l =>
    match l.dropWhile isJsonWs with
    | '"' :: rest =>
      match pStringBody [] rest with
      | none => none
      | some (k, rest2) =>
        match rest2.dropWhile isJsonWs with
        | ':' :: rest3 =>
          match pVal fuel rest3 with
          | none => none
          | some (v, rest4) =>
            match rest4.dropWhile isJsonWs with
            | ',' :: rest5 => (pMembers fuel rest5).map (fun p => ((k, v) :: p.1, p.2))
            | '\x7d' :: rest5 => some ([(k, v)], rest5)
            | _ => none
        | _ => none
    | _ => none
end

/-- Strict JSON reader over a whole byte string: one value surrounded by
whitespace.  Models both gjson.Valid (success of this reader) and the
parsed view gjson takes of a well-formed document. -/
def parseJson (s : String) : Option Json :=
  match pVal (s.length + 1) s.data with
  | some (v, rest) => if rest.dropWhile isJsonWs = [] then some v else none
  | none => none

/-- gjson.Valid: the byte string is one syntactically valid JSON value. -/
def jsonValidStr (s : String) : Bool :=
  (parseJson s).isSome

/-- First-occurrence association lookup, as gjson resolves a key inside an
object (the earliest duplicate wins). -/
def lookupFirst {α : Type} : List (String × α) → String → Option α
  | [], _ => none
  | (k2, v) :: rest, k => if k2 = k then some v else lookupFirst rest k

/-- gjson field access on a single plain key: only objects have fields. -/
def jsonLookup : Json → String → Option Json
  | Json.obj kvs, k => lookupFirst kvs k
  | _, _ => none

/-- gjson Result.String() applied to an optional lookup result: a
non-existent result and null render as the empty string, booleans as
true/false, numbers as their literal text, strings as themselves, and
objects/arrays as their raw JSON text (rendered compactly here, where
gjson would return the original bytes). -/
def gjsonStringOpt : Option Json → String
  | none => ""
  | some Json.null => ""
  | some (Json.bool true) => "true"
  | some (Json.bool false) => "false"
  | some (Json.num lit) => lit
  | some (Json.str s) => s
  | some (Json.arr es) => serialize (Json.arr es)
  | some (Json.obj kvs) => serialize (Json.obj kvs)

/-- Split a character list at the first occurrence of a separator; none
when the separator does not occur. -/
def breakAtFirst (c : Char) : List Char → Option (List Char × List Char)
  | [] => none
  | x :: xs =>
    if x = c then some ([], xs)
    else (breakAtFirst c xs).map (fun p => (x :: p.1, p.2))

/-- strings.SplitN(s, ".", 2): the text before the first dot and the text
after it, or none when s has no dot. -/
def splitFirstDot (s : String) : Option (String × String) :=
  (breakAtFirst '.' s.data).map (fun p => ((⟨p.1⟩ : String), (⟨p.2⟩ : String)))

/-- Split a character list at every occurrence of a separator (strings.Split
and the way gjson walks a dotted path). -/
def splitAllOn (c : Char) : List Char → List (List Char)
  | [] => [[]]
  | x :: xs =>
    match splitAllOn c xs with
    | a :: rest => if x = c then [] :: a :: rest else (x :: a) :: rest
    | [] => [[]]

/-- The dot-separated segments of an accessor path. -/
def pathSegs (path : String) : List String :=
  (splitAllOn '.' path.data).map (fun l => (⟨l⟩ : String))

/-- Strict decimal reading of an array-index path segment. -/
def segToNat (s : String) : Option Nat :=
  if s.data ≠ [] ∧ s.data.all Char.isDigit then some (decValue s.data) else none

/-- gjson get along already-split path segments: objects by first matching
key, arrays by numeric index.  Wildcard and escape syntax of gjson paths is
not modelled; the theorems that quantify over keys restrict them to plain
text. -/
def gjsonGetSegs : List String → Json → Option Json
  | [], j => some j
  | s :: rest, Json.obj kvs =>
    match lookupFirst kvs s with
    | some v => gjsonGetSegs rest v
    | none => none
  | s :: rest, Json.arr es =>
    match segToNat s with
    | some n =>
      match es.get? n with
      | some v => gjsonGetSegs rest v
      | none => none
    | none => none
  | _ :: _, _ => none

/-- gjson.GetBytes on a dotted path. -/
def gjsonGet (j : Json) (path : String) : Option Json :=
  gjsonGetSegs (pathSegs path) j

/-- The ForEach loop body of resolvePath: index of the first array element
whose tag, read through Result.String(), equals the selector (the loop
stops at the first hit). -/
def findTagIndex : List Json → String → Option Nat
  | [], _ => none
  | e :: rest, sel =>
    if gjsonStringOpt (jsonLookup e "tag") = sel then some 0
    else (findTagIndex rest sel).map (· + 1)

/-- resolvePath from api.go: translate a tag-based user path such as
outbounds.NAME into the index-based path the accessor understands. -/
def resolvePath (content : Json) (userPath : String) : String :=
  if userPath = "" then ""
  else
    match splitFirstDot userPath with
    | none => userPath
    | some (rootKey, tagOrKey) =>
      if rootKey = "outbounds" || rootKey = "inbounds" then
        match jsonLookup content rootKey with
        | some (Json.arr elems) =>
          match findTagIndex elems tagOrKey with
          | some i => rootKey ++ "." ++ natToDec i
          | none => userPath
        | _ => userPath
      else userPath

/-- Specification-style restatement of the resolver with the accessor's
text coercion made explicit: the first element whose tag, rendered as text
by the accessor (missing or null renders as the empty string, non-string
tags as their textual form), equals the selector. -/
def specResolve (content : Json) (userPath : String) : String :=
  if userPath = "" then ""
  else
    match splitFirstDot userPath with
    | none => userPath
    | some (rootKey, tagOrKey) =>
      if rootKey = "outbounds" || rootKey = "inbounds" then
        match jsonLookup content rootKey with
        | some (Json.arr elems) =>
          match elems.findIdx? (fun e => gjsonStringOpt (jsonLookup e "tag") == tagOrKey) with
          | some i => rootKey ++ "." ++ natToDec i
          | none => userPath
        | _ => userPath
      else userPath

/-- The element-matching relation exactly as claim C1 words it: the element
has a string-valued tag field equal to the selector. -/
def claimC1Match (e : Json) (sel : String) : Bool :=
  match jsonLookup e "tag" with
  | some (Json.str t) => t = sel
  | _ => false

/-- Resolution as claim C1 literally describes it, differing from the code
only in the element-matching relation. -/
def claimC1Resolve (content : Json) (userPath : String) : String :=
  if userPath = "" then ""
  else
    match splitFirstDot userPath with
    | none => userPath
    | some (rootKey, tagOrKey) =>
      if rootKey = "outbounds" || rootKey = "inbounds" then
        match jsonLookup content rootKey with
        | some (Json.arr elems) =>
          match elems.findIdx? (fun e => claimC1Match e tagOrKey) with
          | some i => rootKey ++ "." ++ natToDec i
          | none => userPath
        | _ => userPath
      else userPath

/-- Response shape of the key enumerator. -/
structure TopKeysResponse where
  root_context_key : String
  keys : List String
deriving DecidableEq, Repr

/-- Whether a gjson result is an object or an array. -/
def isContainer : Json → Bool
  | Json.obj _ => true
  | Json.arr _ => true
  | _ => false

/-- The key text the enumerator appends for one child while drilling down.
innerKeyStr is what gjson ForEach exposes as key.Str: the member key when
iterating an object, and the empty string when iterating an array (array
iteration only fills the numeric key.Num field, never key.Str). -/
def innerDisplay (singleTopKey : String) (isArrayIter : Bool) (innerKeyStr : String)
    (innerValue : Json) : String :=
  if (singleTopKey = "outbounds" || singleTopKey = "inbounds") && isArrayIter then
    let tag := gjsonStringOpt (jsonLookup innerValue "tag")
    if tag ≠ "" then tag else innerKeyStr
  else innerKeyStr

/-- The drilled-down key list for the single top-level value. -/
def enumChildren (singleTopKey : String) : Json → List String
  | Json.obj kvs => kvs.map (fun kv => innerDisplay singleTopKey false kv.1 kv.2)
  | Json.arr es => es.map (fun e => innerDisplay singleTopKey true "" e)
  | _ => []

/-- getTopKeysHandler on a parsed document: top-level keys in document
order, drilling into the value of a single top-level key when that value is
a container; none models the invalid-document error for non-objects. -/
def getTopKeys (doc : Json) : Option TopKeysResponse :=
  match doc with
  | Json.obj kvs =>
    let topLevelKeys := kvs.map (fun kv => kv.1)
    match topLevelKeys with
    | [singleTopKey] =>
      match gjsonGet doc singleTopKey with
      | some v =>
        if isContainer v then some ⟨singleTopKey, enumChildren singleTopKey v⟩
        else some ⟨"", topLevelKeys⟩
      | none => some ⟨"", topLevelKeys⟩
    | _ => some ⟨"", topLevelKeys⟩
  | _ => none

/-- Whether a set path contains sjson's forbidden wildcard characters. -/
def segHasWild (path : String) : Bool :=
  path.data.any (fun c => c = '*' || c = '?')

/-- Structure sjson builds for the part of a set path that does not exist
yet: a numeric segment creates an array padded with nulls, any other
segment a nested object. -/
def newStruct : List String → Json → Json
  | [], v => v
  | s :: rest, v =>
    match segToNat s with
    | some n => Json.arr (List.replicate n Json.null ++ [newStruct rest v])
    | none => Json.obj [(s, newStruct rest v)]

/-- Rebind the first occurrence of a key in a member list to a new value,
keeping document order. -/
def replaceFirst (kvs : List (String × Json)) (s : String) (nv : Json) : List (String × Json) :=
  match kvs with
  | [] => []
  | (k, w) :: rest => if k = s then (k, nv) :: rest else (k, w) :: replaceFirst rest s nv

/-- sjson set along already-split segments: replaces at an existing key
(the first occurrence) or index, appends a freshly built structure at a
missing key, pads an array with nulls below an out-of-range index, and
overwrites a scalar that is addressed as a container. -/
def setSegs : List String → Json → Json → Except String Json
  | [], _, v => Except.ok v
  | s :: rest, Json.obj kvs, v =>
    match lookupFirst kvs s with
    | some w => (setSegs rest w v).map (fun nw => Json.obj (replaceFirst kvs s nw))
    | none => Except.ok (Json.obj (kvs ++ [(s, newStruct rest v)]))
  | s :: rest, Json.arr es, v =>
    match segToNat s with
    | some n =>
      if h : n < es.length then
        (setSegs rest (es.get ⟨n, h⟩) v).map (fun nv => Json.arr (es.set n nv))
      else
        Except.ok (Json.arr (es ++ List.replicate (n - es.length) Json.null ++ [newStruct rest v]))
    | none =>
      if s = "-1" then Except.ok (Json.arr (es ++ [newStruct rest v]))
      else Except.error ("cannot set array element for non-numeric key " ++ s)
  | s :: rest, _, v => Except.ok (newStruct (s :: rest) v)

/-- sjson.SetBytes on a dotted path (wildcards rejected as sjson does;
backslash escapes and modifier syntax are not modelled). -/
def sjsonSet (j : Json) (path : String) (v : Json) : Except String Json :=
  if segHasWild path then Except.error "wildcard characters not allowed in path"
  else setSegs (pathSegs path) j v

/-- The value handed to the accessor by saveFileContentHandler, mirroring
gjson.Valid(contentToSave) selecting between json.RawMessage of the text
(a raw splice of the already-valid JSON) and the plain Go string (an
escaped string write). -/
def classifyContent (contentToSave : String) : Json :=
  if jsonValidStr contentToSave then
    match parseJson contentToSave with
    | some v => v
    | none => Json.str contentToSave
  else Json.str contentToSave

/-- saveFileContentHandler on the stored bytes: an empty path replaces the
whole document verbatim; otherwise the symbolic path is resolved against
the current bytes, the classified value is set, and the result is kept
only when it passes the validity check.  A stored buffer that is not
strict JSON is below the model (sjson would splice bytes best-effort) and
is mapped to a set failure. -/
def saveFile (disk userPath contentToSave : String) : Except String String :=
  if userPath = "" then Except.ok contentToSave
  else
    match parseJson disk with
    | none => Except.error "unmodeled: stored buffer is not strict JSON"
    | some doc =>
      let realPath := resolvePath doc userPath
      match sjsonSet doc realPath (classifyContent contentToSave) with
      | Except.error e => Except.error ("修改失败：" ++ e)
      | Except.ok updated =>
        let updatedBytes := serialize updated
        if jsonValidStr updatedBytes then Except.ok updatedBytes
        else Except.error "修改后的文件内容不是合法的JSON。"

/-- The bytes left on disk by the save handler: ioutil.WriteFile runs only
after every failure check has passed. -/
def persistAfterSave (disk userPath contentToSave : String) : String :=
  match saveFile disk userPath contentToSave with
  | Except.ok newBytes => newBytes
  | Except.error _ => disk

/-- Go strings.TrimSpace character class (ASCII part; the claims only
exercise ASCII). -/
def isSpaceGo (c : Char) : Bool :=
  c = ' ' || c = '\t' || c = '\n' || c = '\r' || c = '\x0b' || c = '\x0c'

/-- Trim surrounding whitespace, claim C2's first step. -/
def trimSpace (s : String) : String :=
  ⟨((s.data.dropWhile isSpaceGo).reverse.dropWhile isSpaceGo).reverse⟩

/-- Head test on a character list. -/
def headIs (c : Char) (l : List Char) : Bool :=
  match l with
  | x :: _ => x = c
  | [] => false

/-- The structured-fragment test exactly as claim C2 words it: after
trimming, the text is brace- or bracket-delimited. -/
def specIsStructured (s : String) : Bool :=
  let t := (trimSpace s).data
  (headIs '\x7b' t && headIs '\x7d' t.reverse) || (headIs '[' t && headIs ']' t.reverse)

/-- Go strings.HasSuffix. -/
def hasSuffix (s sfx : String) : Bool :=
  sfx.data.isSuffixOf s.data

/-- Go strings.TrimSuffix. -/
def trimSuffixStr (s sfx : String) : String :=
  if hasSuffix s sfx then ⟨s.data.take (s.data.length - sfx.data.length)⟩ else s

/-- One classifier display entry (ConfigTypeInfo in the Go source; the
registry stores it with an empty FileName). -/
structure ConfigTypeInfo where
  FunctionName : String
  FileName : String
  Order : Nat
deriving DecidableEq, Repr

/-- The static registry configTypeMap: root key to function name and
display rank.  In Go this is a map whose iteration order varies run to
run; the model keeps the literal entry list and lets theorems quantify
over its permutations. -/
def configTypeMap : List (String × ConfigTypeInfo) :=
  [("log", ⟨"日志", "", 1⟩),
   ("experimental", ⟨"实验性", "", 2⟩),
   ("dns", ⟨"DNS", "", 3⟩),
   ("inbounds", ⟨"入站", "", 4⟩),
   ("outbounds", ⟨"出站", "", 5⟩),
   ("route", ⟨"路由规则", "", 6⟩),
   ("ntp", ⟨"NTP", "", 7⟩),
   ("fakedns", ⟨"FakeDNS", "", 8⟩),
   ("warp", ⟨"WARP", "", 9⟩)]

/-- One directory entry as the classifier sees it: a name, whether it is a
directory, and the file bytes (none models an ioutil.ReadFile error). -/
structure DirEntry where
  name : String
  isDir : Bool
  content : Option String
deriving DecidableEq, Repr

/-- Classifier scan state: the candidate file list, the per-category file
lists (tempFunctionalMap, looked up by function name), and the unmatched
list. -/
structure ScanState where
  configFiles : List String
  tempMap : String → List String
  unmatched : List String

/-- The ForEach loop over a parsed object's top-level keys: the registry
info of the first key present in configTypeMap, if any (the loop returns
false to stop at the first hit). -/
def firstRegistryHit : List (String × Json) → Option ConfigTypeInfo
  | [] => none
  | (k, _) :: rest =>
    match lookupFirst configTypeMap k with
    | some info => some info
    | none => firstRegistryHit rest

/-- Scan state before any entry is processed. -/
def emptyScan : ScanState :=
  ⟨[], fun _ => [], []⟩

/-- The body of the directory loop in getFunctionalConfigsHandler for one
entry: directories and non-.json names are skipped, every kept name joins
configFiles, an unreadable file is dropped with continue, a file that is
not a JSON object or has no registry root joins unmatched, and otherwise
the name is appended to its category's list.  gjson.ParseBytes followed by
IsObject is modelled as strict parsing to an object (gjson's best-effort
reading of malformed buffers is below the model). -/
def scanStep (st : ScanState) : DirEntry → ScanState
  | ⟨name, isDir, content⟩ =>
    if !isDir && hasSuffix name ".json" then
      match content with
      | none => ⟨st.configFiles ++ [name], st.tempMap, st.unmatched⟩
      | some content =>
        match parseJson content with
        | some (Json.obj kvs) =>
          match firstRegistryHit kvs with
          | some info =>
            ⟨st.configFiles ++ [name],
             fun n => if n = info.FunctionName then st.tempMap n ++ [name] else st.tempMap n,
             st.unmatched⟩
          | none => ⟨st.configFiles ++ [name], st.tempMap, st.unmatched ++ [name]⟩
        | _ => ⟨st.configFiles ++ [name], st.tempMap, st.unmatched ++ [name]⟩
    else st

/-- The whole directory scan. -/
def scanEntries (entries : List DirEntry) : ScanState :=
  entries.foldl scanStep emptyScan

/-- Pointwise concatenation of two scan states (the algebraic shape of the
scan: each entry contributes independently). -/
def mergeScan (a b : ScanState) : ScanState :=
  ⟨a.configFiles ++ b.configFiles, fun n => a.tempMap n ++ b.tempMap n,
   a.unmatched ++ b.unmatched⟩

/-- Strict lexicographic order on character lists.  Go compares strings
byte by byte; UTF-8 preserves code-point order, so the character-level
comparison agrees with it. -/
def charListLt : List Char → List Char → Bool
  | _, [] => false
  | [], _ :: _ => true
  | a :: as, b :: bs =>
    if a < b then true
    else if b < a then false
    else charListLt as bs

/-- Go string less-or-equal: the right string is not smaller. -/
def strLe (a b : String) : Bool :=
  !charListLt b.data a.data

/-- strLe as a relation for the sorting lemmas. -/
def strLeP (a b : String) : Prop :=
  strLe a b = true

instance : DecidableRel strLeP := fun a b => by
  unfold strLeP
  infer_instance

/-- Ascending string order used by sort.Strings. -/
def sortStrings (l : List String) : List String :=
  List.insertionSort strLeP l

/-- The display entries one registry value contributes: nothing when its
category collected no file, the bare name for a single file, and 1-based
numbered names over the filename-sorted list otherwise. -/
def entryGen (tm : String → List String) (info : ConfigTypeInfo) : List ConfigTypeInfo :=
  match sortStrings (tm info.FunctionName) with
  | [] => []
  | [f] => [⟨info.FunctionName, f, info.Order⟩]
  | fs => fs.enum.map (fun p => ⟨info.FunctionName ++ " " ++ natToDec (p.1 + 1), p.2, info.Order⟩)

/-- The pre-sort display list, built by ranging over the registry map in
the iteration order iter (a permutation of configTypeMap). -/
def entriesFor (iter : List (String × ConfigTypeInfo)) (tm : String → List String) :
    List ConfigTypeInfo :=
  iter.flatMap (fun p => entryGen tm p.2)

/-- The sort.Slice order: ascending rank, ties by display name. -/
def entryLeP (x y : ConfigTypeInfo) : Prop :=
  x.Order < y.Order ∨ (x.Order = y.Order ∧ strLeP x.FunctionName y.FunctionName)

instance : DecidableRel entryLeP := fun x y => by
  unfold entryLeP; infer_instance

/-- The registry part of the classifier output: generated entries sorted by
rank then name.  sort.Slice is not stable, but on this list the sort key is
injective (proved below), so any correct sort yields this list. -/
def regPart (iter : List (String × ConfigTypeInfo)) (entries : List DirEntry) :
    List ConfigTypeInfo :=
  List.insertionSort entryLeP (entriesFor iter (scanEntries entries).tempMap)

/-- The unmatched part of the classifier output: one pseudo-category per
unmatched file, filename-sorted, named with the fixed 其他- prefix plus the
filename stem, ranked after every registry rank. -/
def otherPart (entries : List DirEntry) : List ConfigTypeInfo :=
  (sortStrings (scanEntries entries).unmatched).map
    (fun f => ⟨"其他-" ++ trimSuffixStr f ".json", f, configTypeMap.length + 1⟩)

/-- getFunctionalConfigsHandler: the ordered functional list and the sorted
candidate file list. -/
def classifyOutput (iter : List (String × ConfigTypeInfo)) (entries : List DirEntry) :
    List ConfigTypeInfo × List String :=
  (regPart iter entries ++ otherPart entries, sortStrings (scanEntries entries).configFiles)

/-- A key that the accessor path syntax treats as literal text: no
separator, wildcard, escape, query or modifier characters.  Theorems that
feed a document key back into the accessor as a path are restricted to
such keys, where the model is faithful to gjson. -/
def plainKey (k : String) : Bool :=
  k.data.all (fun c =>
    c ≠ '.' && c ≠ '*' && c ≠ '?' && c ≠ '\\' && c ≠ '#' && c ≠ '@' && c ≠ '|' && c ≠ '!')

/-- The sort key of the display sort: rank and display name.  On every
list the classifier actually sorts, this key is injective, which is what
makes the unstable sort.Slice deterministic. -/
def entryKey (e : ConfigTypeInfo) : Nat × String :=
  (e.Order, e.FunctionName)

/-- Number of children of a JSON container. -/
def jsonChildCount : Json → Nat
  | Json.obj kvs => kvs.length
  | Json.arr es => es.length
  | _ => 0

/-! ### Helper lemmas -/

theorem breakAtFirst_none (c : Char) :
    ∀ l : List Char, (∀ x ∈ l, x ≠ c) → breakAtFirst c l = none
  | [], _ => rfl
  | x :: xs, h => by
    rw [breakAtFirst, if_neg (h x (List.mem_cons_self x xs)),
      breakAtFirst_none c xs (fun y hy => h y (List.mem_cons_of_mem x hy))]
    rfl

theorem splitAllOn_no_sep (c : Char) :
    ∀ l : List Char, (∀ x ∈ l, x ≠ c) → splitAllOn c l = [l]
  | [], _ => rfl
  | x :: xs, h => by
    rw [splitAllOn, splitAllOn_no_sep c xs (fun y hy => h y (List.mem_cons_of_mem x hy))]
    show (if x = c then [[], xs] else [x :: xs]) = [x :: xs]
    rw [if_neg (h x (List.mem_cons_self x xs))]

theorem plainKey_no_dot {k : String} (hk : plainKey k = true) :
    ∀ x ∈ k.data, x ≠ '.' := by
  intro x hx
  unfold plainKey at hk
  rw [List.all_eq_true] at hk
  have := hk x hx
  simp only [Bool.and_eq_true, decide_eq_true_eq, ne_eq] at this
  exact this.1.1.1.1.1.1.1

theorem pathSegs_plain (k : String) (hk : plainKey k = true) : pathSegs k = [k] := by
  unfold pathSegs
  rw [splitAllOn_no_sep '.' k.data (plainKey_no_dot hk)]
  rfl

theorem gjsonGet_plain (kvs : List (String × Json)) (k : String) (hk : plainKey k = true) :
    gjsonGet (Json.obj kvs) k = lookupFirst kvs k := by
  unfold gjsonGet
  rw [pathSegs_plain k hk]
  cases h : lookupFirst kvs k <;> simp [gjsonGetSegs, h]

/-! ### C7 and C8: the key enumerator -/

/-- C7, counterexample to the claim as stated.  The document whose single
top-level key is the dotted name a.b has an object value, so the claim
requires drill-down with contextKey a.b and keys x; but the handler feeds
the key back into the accessor as a path, where the dot is a separator, so
the lookup misses, no drill-down happens, and the top-level listing is
returned instead. -/
theorem getTopKeys_claimC7_counterexample :
    getTopKeys (Json.obj [("a.b", Json.obj [("x", Json.num "1")])])
        = some ⟨"", ["a.b"]⟩
      ∧ some (⟨"", ["a.b"]⟩ : TopKeysResponse) ≠ some ⟨"a.b", ["x"]⟩ :=
  ⟨rfl, by decide⟩

/-- C7 (amended): for a document whose top level is an object with exactly
one key that is free of the accessor's special path characters (separator,
wildcard, escape, query and modifier characters) and whose value is an
object or array, listKeys enumerates that value's children (for an object
value, exactly its member keys) and sets contextKey to that key — in
particular the document with the single dns root enumerates servers under
contextKey dns.  For every object document without exactly one top-level
key, and for a single special-character-free key with a scalar value, it
returns the top-level keys in document order with an empty contextKey.  A
single key containing special path characters is looked up through the
accessor's path syntax and need not drill down: the dotted key a.b splits
at the separator, the lookup misses, and the top-level listing is returned
with no contextKey (final conjunct; the same fact is the counterexample to
the claim as stated). -/
theorem getTopKeys_amended :
    (getTopKeys (Json.obj [("dns", Json.obj [("servers", Json.arr [])])])
        = some ⟨"dns", ["servers"]⟩)
    ∧ (∀ (k : String) (v : Json), plainKey k = true → isContainer v = true →
        getTopKeys (Json.obj [(k, v)]) = some ⟨k, enumChildren k v⟩
          ∧ (enumChildren k v).length = jsonChildCount v
          ∧ (∀ kvs2 : List (String × Json), v = Json.obj kvs2 →
              enumChildren k v = kvs2.map (fun kv => kv.1)))
    ∧ (∀ kvs : List (String × Json), kvs.length ≠ 1 →
        getTopKeys (Json.obj kvs) = some ⟨"", kvs.map (fun kv => kv.1)⟩)
    ∧ (∀ (k : String) (v : Json), plainKey k = true → isContainer v = false →
        getTopKeys (Json.obj [(k, v)]) = some ⟨"", [k]⟩)
    ∧ getTopKeys (Json.obj [("a.b", Json.obj [("x", Json.num "1")])])
        = some ⟨"", ["a.b"]⟩ := by
  refine ⟨rfl, ?_, ?_, ?_, rfl⟩
  · intro k v hk hv
    have hget : gjsonGet (Json.obj [(k, v)]) k = some v := by
      rw [gjsonGet_plain _ _ hk]
      simp [lookupFirst]
    refine ⟨?_, ?_, ?_⟩
    · simp only [getTopKeys, List.map_cons, List.map_nil, hget, hv, if_true]
    · cases v <;> simp_all [enumChildren, jsonChildCount, isContainer]
    · intro kvs2 hv2
      subst hv2
      simp [enumChildren, innerDisplay]
  · intro kvs hlen
    match hm : kvs.map (fun kv => kv.1) with
    | [] => simp only [getTopKeys, hm]
    | [k] =>
      exfalso
      apply hlen
      have := congrArg List.length hm
      simpa using this
    | k :: k2 :: rest => simp only [getTopKeys, hm]
  · intro k v hk hv
    have hget : gjsonGet (Json.obj [(k, v)]) k = some v := by
      rw [gjsonGet_plain _ _ hk]
      simp [lookupFirst]
    simp only [getTopKeys, List.map_cons, List.map_nil, hget, hv, Bool.false_eq_true, if_false]

/-- C8, the code against the claim at the failing input: drilling into an
outbounds array whose element has no tag displays the empty string, not
the positional index 0, because gjson's array iteration leaves the string
form of the key empty (key.Str is only filled for objects) while the
handler's own comment promises the index. -/
theorem getTopKeys_array_fallback_bug :
    getTopKeys (Json.obj [("outbounds", Json.arr [Json.obj []])])
        = some ⟨"outbounds", [""]⟩
      ∧ ([""] : List String) ≠ ["0"] :=
  ⟨rfl, by decide⟩

theorem findTagIndex_eq_findIdx (sel : String) :
    ∀ elems : List Json,
      findTagIndex elems sel
        = elems.findIdx? (fun e => gjsonStringOpt (jsonLookup e "tag") == sel)
  | [] => rfl
  | e :: rest => by
    rw [findTagIndex, List.findIdx?_cons]
    by_cases h : gjsonStringOpt (jsonLookup e "tag") = sel
    · simp [h]
    · simp [h, List.findIdx?_succ, findTagIndex_eq_findIdx sel rest]

/-! ### C1: symbolic path resolution -/

/-- C1, counterexample to the claim as stated.  For the document
with outbounds equal to a one-element array whose element has no tag field
at all, and the path with an empty selector after the dot, no element has
a (string-valued) tag equal to the selector, so the claim requires the
path back unchanged; the code instead matches the element because
Result.String() renders the missing tag as the empty string, and returns
the index path. -/
theorem resolvePath_claimC1_counterexample :
    resolvePath (Json.obj [("outbounds", Json.arr [Json.obj []])]) "outbounds." = "outbounds.0"
      ∧ claimC1Resolve (Json.obj [("outbounds", Json.arr [Json.obj []])]) "outbounds."
          = "outbounds."
      ∧ ("outbounds.0" : String) ≠ "outbounds." := by
  refine ⟨rfl, rfl, by decide⟩

/-- C1 (amended): resolution behaves exactly as the claim describes except
that the element match compares the selector with the tag as rendered by
the accessor's Result.String() — a missing or null tag renders as the
empty string and a non-string tag as its textual form — rather than with a
string-valued tag field only.  With that coercion, resolve returns
root.index for the first matching element of an outbounds/inbounds array
and returns every other path (empty, dotless, foreign root, non-array
root, or no match) unchanged. -/
theorem resolvePath_amended (content : Json) (userPath : String) :
    resolvePath content userPath = specResolve content userPath := by
  unfold resolvePath specResolve
  simp only [findTagIndex_eq_findIdx]

/-! ### C2, C3, C9: the patch writer -/

theorem plainKey_no_wild {k : String} (hk : plainKey k = true) : segHasWild k = false := by
  unfold plainKey at hk
  rw [List.all_eq_true] at hk
  unfold segHasWild
  rw [List.any_eq_false]
  intro c hc
  have h2 := hk c hc
  simp only [Bool.and_eq_true, decide_eq_true_eq, ne_eq] at h2
  simp [h2.1.1.1.1.1.1.2, h2.1.1.1.1.1.2]

/-- C2, counterexample to the claim as stated.  The value text 123 does
not pass the trim-and-delimiters test, so the claim requires it to be
written as a JSON-escaped quoted string; the code instead classifies by
gjson.Valid, finds the text to be valid JSON, and splices it raw, storing
the number 123 rather than the string. -/
theorem saveFile_claimC2_counterexample :
    specIsStructured "123" = false
      ∧ saveFile "\x7b\"a\":1\x7d" "a" "123" = Except.ok "\x7b\"a\":123\x7d"
      ∧ (sjsonSet (Json.obj [("a", Json.num "1")]) "a" (Json.str "123")).map serialize
          = Except.ok "\x7b\"a\":\"123\"\x7d"
      ∧ ("\x7b\"a\":123\x7d" : String) ≠ "\x7b\"a\":\"123\"\x7d" :=
  ⟨rfl, rfl, rfl, by decide⟩

/-- C2 (amended): for a write with a non-empty symbolic path the new value
text is classified by strict JSON validity, not by a trim-and-delimiters
test: text that validates (including bare scalars such as 123) is spliced
into the document as its parsed JSON value without re-escaping, and any
text that fails validation — including brace-delimited fragments a strict
parser rejects, such as ones containing comments — is written as a
JSON-escaped quoted string at the resolved path. -/
theorem saveFile_amended :
    (∀ content : String, jsonValidStr content = false →
        classifyContent content = Json.str content)
    ∧ (∀ (content : String) (v : Json), parseJson content = some v →
        classifyContent content = v)
    ∧ (∀ s : String, specIsStructured s = true → jsonValidStr s = false →
        classifyContent s = Json.str s)
    ∧ (∀ (disk : String) (doc : Json) (path content : String),
        parseJson disk = some doc → path ≠ "" →
        saveFile disk path content =
          match sjsonSet doc (resolvePath doc path) (classifyContent content) with
          | Except.error e => Except.error ("修改失败：" ++ e)
          | Except.ok updated =>
            if jsonValidStr (serialize updated) then Except.ok (serialize updated)
            else Except.error "修改后的文件内容不是合法的JSON。") := by
  refine ⟨?_, ?_, ?_, ?_⟩
  · intro content h
    simp [classifyContent, h]
  · intro content v h
    simp [classifyContent, jsonValidStr, h]
  · intro s _ h
    simp [classifyContent, h]
  · intro disk doc path content hd hp
    simp only [saveFile, if_neg hp, hd]

/-- C3, counterexample to the claim as stated.  The resolved path b does
not exist in the stored document, so the claim requires a structured
error; the code never checks existence on the write side — the
accessor-level set simply creates the member and the save succeeds. -/
theorem saveFile_claimC3_counterexample :
    gjsonGet (Json.obj [("a", Json.num "1")]) "b" = none
      ∧ parseJson "\x7b\"a\":1\x7d" = some (Json.obj [("a", Json.num "1")])
      ∧ resolvePath (Json.obj [("a", Json.num "1")]) "b" = "b"
      ∧ saveFile "\x7b\"a\":1\x7d" "b" "2" = Except.ok "\x7b\"a\":1,\"b\":2\x7d" :=
  ⟨rfl, rfl, rfl, rfl⟩

/-- C3 (amended): a write with a non-empty symbolic path performs no
existence check — setting a resolved path that is absent from the document
succeeds by creating the member (shown here for a plain single-segment
path on an object root); an accessor-level set failure is propagated to
the caller as a write error carrying the accessor's message; and in every
failure case nothing is persisted — the stored bytes after the attempt
are exactly the bytes from before it. -/
theorem saveFile_error_handling :
    (∀ (kvs : List (String × Json)) (k : String) (v : Json),
        plainKey k = true → lookupFirst kvs k = none →
        sjsonSet (Json.obj kvs) k v = Except.ok (Json.obj (kvs ++ [(k, v)])))
    ∧ (∀ (disk : String) (doc : Json) (path content e : String),
        parseJson disk = some doc → path ≠ "" →
        sjsonSet doc (resolvePath doc path) (classifyContent content) = Except.error e →
        saveFile disk path content = Except.error ("修改失败：" ++ e))
    ∧ (∀ disk path content e, saveFile disk path content = Except.error e →
        persistAfterSave disk path content = disk) := by
  refine ⟨?_, ?_, ?_⟩
  · intro kvs k v hk hmiss
    unfold sjsonSet
    rw [plainKey_no_wild hk, pathSegs_plain k hk]
    simp only [Bool.false_eq_true, if_false, setSegs, hmiss, Option.isSome_none,
      newStruct]
  · intro disk doc path content e hd hp hset
    simp only [saveFile, if_neg hp, hd, hset]
  · intro disk path content e herr
    unfold persistAfterSave
    rw [herr]

/-- C9: a save with a non-empty symbolic path never persists bytes that
fail the JSON validity check — whatever bytes a successful save returns
have passed gjson.ValidBytes, and every failing save leaves the stored
bytes unchanged by returning before the write; a save with an empty path
writes the supplied content verbatim with no validity check at all. -/
theorem saveFile_valid_json_invariant :
    (∀ disk path content newBytes, path ≠ "" →
        saveFile disk path content = Except.ok newBytes → jsonValidStr newBytes = true)
    ∧ (∀ disk content, saveFile disk "" content = Except.ok content) := by
  constructor
  · intro disk path content newBytes hp hok
    simp only [saveFile, if_neg hp] at hok
    cases hparse : parseJson disk with
    | none => simp only [hparse] at hok; exact absurd hok (by simp)
    | some doc =>
      simp only [hparse] at hok
      cases hset : sjsonSet doc (resolvePath doc path) (classifyContent content) with
      | error e => simp only [hset] at hok; exact absurd hok (by simp)
      | ok updated =>
        simp only [hset] at hok
        by_cases hv : jsonValidStr (serialize updated) = true
        · rw [if_pos hv] at hok
          cases hok
          exact hv
        · rw [if_neg hv] at hok
          exact absurd hok (by simp)
  · intro disk content
    rfl

/-! ### Classifier infrastructure -/

theorem scanState_ext {a b : ScanState} (h1 : a.configFiles = b.configFiles)
    (h2 : ∀ n, a.tempMap n = b.tempMap n) (h3 : a.unmatched = b.unmatched) : a = b := by
  cases a with
  | mk cf1 tm1 um1 =>
    cases b with
    | mk cf2 tm2 um2 =>
      simp only at h1 h2 h3
      subst h1
      subst h3
      rw [funext h2]

theorem mergeScan_empty_right (a : ScanState) : mergeScan a emptyScan = a :=
  scanState_ext (List.append_nil _) (fun n => List.append_nil _) (List.append_nil _)

theorem mergeScan_assoc (a b c : ScanState) :
    mergeScan (mergeScan a b) c = mergeScan a (mergeScan b c) :=
  scanState_ext (List.append_assoc _ _ _) (fun n => List.append_assoc _ _ _)
    (List.append_assoc _ _ _)

theorem scanStep_merge (a b : ScanState) (e : DirEntry) :
    scanStep (mergeScan a b) e = mergeScan a (scanStep b e) := by
  obtain ⟨name, isDir, content⟩ := e
  by_cases hc : (!isDir && hasSuffix name ".json") = true
  · cases content with
    | none =>
      simp only [scanStep]
      rw [if_pos hc, if_pos hc]
      exact scanState_ext (List.append_assoc _ _ _) (fun n => rfl) rfl
    | some content =>
      cases hparse : parseJson content with
      | none =>
        simp only [scanStep, hparse]
        rw [if_pos hc, if_pos hc]
        exact scanState_ext (List.append_assoc _ _ _) (fun n => rfl) (List.append_assoc _ _ _)
      | some j =>
        cases j with
        | obj kvs =>
          cases hhit : firstRegistryHit kvs with
          | some info =>
            simp only [scanStep, hparse, hhit]
            rw [if_pos hc, if_pos hc]
            refine scanState_ext (List.append_assoc _ _ _) (fun n => ?_) rfl
            by_cases hn : n = info.FunctionName
            · simp only [mergeScan, if_pos hn, List.append_assoc]
            · simp only [mergeScan, if_neg hn]
          | none =>
            simp only [scanStep, hparse, hhit]
            rw [if_pos hc, if_pos hc]
            exact scanState_ext (List.append_assoc _ _ _) (fun n => rfl) (List.append_assoc _ _ _)
        | null =>
          simp only [scanStep, hparse]
          rw [if_pos hc, if_pos hc]
          exact scanState_ext (List.append_assoc _ _ _) (fun n => rfl) (List.append_assoc _ _ _)
        | bool b2 =>
          simp only [scanStep, hparse]
          rw [if_pos hc, if_pos hc]
          exact scanState_ext (List.append_assoc _ _ _) (fun n => rfl) (List.append_assoc _ _ _)
        | num lit =>
          simp only [scanStep, hparse]
          rw [if_pos hc, if_pos hc]
          exact scanState_ext (List.append_assoc _ _ _) (fun n => rfl) (List.append_assoc _ _ _)
        | str s =>
          simp only [scanStep, hparse]
          rw [if_pos hc, if_pos hc]
          exact scanState_ext (List.append_assoc _ _ _) (fun n => rfl) (List.append_assoc _ _ _)
        | arr es =>
          simp only [scanStep, hparse]
          rw [if_pos hc, if_pos hc]
          exact scanState_ext (List.append_assoc _ _ _) (fun n => rfl) (List.append_assoc _ _ _)
  · simp only [scanStep]
    rw [if_neg hc, if_neg hc]

theorem foldl_scanStep_merge :
    ∀ (l : List DirEntry) (st : ScanState), l.foldl scanStep st = mergeScan st (scanEntries l)
  | [], st => (mergeScan_empty_right st).symm
  | e :: l, st => by
    rw [List.foldl_cons, foldl_scanStep_merge l (scanStep st e)]
    have h1 : scanEntries (e :: l) = mergeScan (scanStep emptyScan e) (scanEntries l) := by
      unfold scanEntries
      rw [List.foldl_cons]
      exact foldl_scanStep_merge l (scanStep emptyScan e)
    rw [h1, ← mergeScan_assoc]
    have h2 := scanStep_merge st emptyScan e
    rw [mergeScan_empty_right] at h2
    rw [h2]

theorem scan_append (l₁ l₂ : List DirEntry) :
    scanEntries (l₁ ++ l₂) = mergeScan (scanEntries l₁) (scanEntries l₂) := by
  unfold scanEntries
  rw [List.foldl_append]
  exact foldl_scanStep_merge l₂ (List.foldl scanStep emptyScan l₁)

theorem scan_cons (e : DirEntry) (l : List DirEntry) :
    scanEntries (e :: l) = mergeScan (scanStep emptyScan e) (scanEntries l) := by
  unfold scanEntries
  rw [List.foldl_cons]
  exact foldl_scanStep_merge l (scanStep emptyScan e)

theorem scanStep_empty_tempMap_mem (e : DirEntry) (fn x : String)
    (hx : x ∈ (scanStep emptyScan e).tempMap fn) : x = e.name := by
  obtain ⟨name, isDir, content⟩ := e
  simp only [scanStep] at hx
  split at hx
  · split at hx
    · simp [emptyScan] at hx
    · split at hx
      · split at hx
        · simp only [emptyScan] at hx
          split at hx
          · simp at hx
            exact hx
          · simp at hx
        · simp [emptyScan] at hx
      · simp [emptyScan] at hx
  · simp [emptyScan] at hx

theorem scanStep_empty_unmatched_mem (e : DirEntry) (x : String)
    (hx : x ∈ (scanStep emptyScan e).unmatched) : x = e.name := by
  obtain ⟨name, isDir, content⟩ := e
  simp only [scanStep] at hx
  split at hx
  · split at hx
    · simp [emptyScan] at hx
    · split at hx
      · split at hx
        · simp [emptyScan] at hx
        · simp only [emptyScan, List.nil_append, List.mem_singleton] at hx
          exact hx
      · simp only [emptyScan, List.nil_append, List.mem_singleton] at hx
        exact hx
  · simp [emptyScan] at hx

theorem tempMap_mem_names :
    ∀ (l : List DirEntry) (fn x : String),
      x ∈ (scanEntries l).tempMap fn → ∃ e ∈ l, e.name = x
  | [], fn, x => by
    intro hx
    exact absurd hx (List.not_mem_nil x)
  | e :: l, fn, x => by
    intro hx
    rw [scan_cons] at hx
    rcases List.mem_append.mp hx with h | h
    · exact ⟨e, List.mem_cons_self e l, (scanStep_empty_tempMap_mem e fn x h).symm⟩
    · obtain ⟨e2, he2, hname⟩ := tempMap_mem_names l fn x h
      exact ⟨e2, List.mem_cons_of_mem e he2, hname⟩

theorem unmatched_mem_names :
    ∀ (l : List DirEntry) (x : String),
      x ∈ (scanEntries l).unmatched → ∃ e ∈ l, e.name = x
  | [], x => by
    intro hx
    exact absurd hx (List.not_mem_nil x)
  | e :: l, x => by
    intro hx
    rw [scan_cons] at hx
    rcases List.mem_append.mp hx with h | h
    · exact ⟨e, List.mem_cons_self e l, (scanStep_empty_unmatched_mem e x h).symm⟩
    · obtain ⟨e2, he2, hname⟩ := unmatched_mem_names l x h
      exact ⟨e2, List.mem_cons_of_mem e he2, hname⟩

theorem entryGen_fileName_mem (tm : String → List String) (info : ConfigTypeInfo)
    (x : ConfigTypeInfo) (hx : x ∈ entryGen tm info) :
    x.FileName ∈ tm info.FunctionName := by
  have hmain : ∀ f, f ∈ sortStrings (tm info.FunctionName) → f ∈ tm info.FunctionName := by
    intro f hf
    simpa [sortStrings, List.mem_insertionSort] using hf
  unfold entryGen at hx
  cases hsort : sortStrings (tm info.FunctionName) with
  | nil =>
    simp only [hsort] at hx
    exact absurd hx (List.not_mem_nil x)
  | cons f rest =>
    cases rest with
    | nil =>
      simp only [hsort, List.mem_singleton] at hx
      subst hx
      exact hmain f (by rw [hsort]; exact List.mem_singleton.mpr rfl)
    | cons f2 rest2 =>
      simp only [hsort, List.mem_map] at hx
      obtain ⟨p, hp, hpx⟩ := hx
      have hmem : p.2 ∈ f :: f2 :: rest2 := List.get?_mem (List.mem_enum_iff_get?.mp hp)
      have hfin : p.2 ∈ tm info.FunctionName := hmain p.2 (by rw [hsort]; exact hmem)
      rw [← hpx]
      exact hfin

theorem regPart_fileName_mem (iter : List (String × ConfigTypeInfo))
    (entries : List DirEntry) (x : ConfigTypeInfo) (hx : x ∈ regPart iter entries) :
    ∃ p ∈ iter, x.FileName ∈ (scanEntries entries).tempMap p.2.FunctionName := by
  unfold regPart at hx
  rw [List.mem_insertionSort] at hx
  unfold entriesFor at hx
  rw [List.mem_flatMap] at hx
  obtain ⟨p, hp, hxp⟩ := hx
  exact ⟨p, hp, entryGen_fileName_mem _ _ _ hxp⟩

/-! ### C4: per-file classification -/

/-- C4: classification is per-file and total.  The scan over a directory
listing is a homomorphism — the state for a concatenation is the pointwise
concatenation of the states, so no single file can abort the scan or alter
the classification of the others.  A file whose bytes parse to an object
is filed under exactly one category bucket, the one mapped from the first
top-level key (in document order) that appears in the static registry, and
is not unmatched; a file whose bytes do not parse to an object, or none of
whose top-level keys is in the registry, lands in the unmatched bucket and
in no category. -/
theorem classifier_per_file :
    (∀ l₁ l₂ : List DirEntry,
        scanEntries (l₁ ++ l₂) = mergeScan (scanEntries l₁) (scanEntries l₂))
    ∧ (∀ kvs : List (String × Json),
        firstRegistryHit kvs
          = ((kvs.map (fun kv => kv.1)).filterMap (lookupFirst configTypeMap)).head?)
    ∧ (∀ (name content : String) (kvs : List (String × Json)) (info : ConfigTypeInfo),
        hasSuffix name ".json" = true →
        parseJson content = some (Json.obj kvs) →
        firstRegistryHit kvs = some info →
        (scanEntries [⟨name, false, some content⟩]).configFiles = [name]
          ∧ (∀ fn, (scanEntries [⟨name, false, some content⟩]).tempMap fn
              = if fn = info.FunctionName then [name] else [])
          ∧ (scanEntries [⟨name, false, some content⟩]).unmatched = [])
    ∧ (∀ name content : String,
        hasSuffix name ".json" = true →
        (∀ kvs : List (String × Json), parseJson content ≠ some (Json.obj kvs)) →
        (scanEntries [⟨name, false, some content⟩]).unmatched = [name]
          ∧ ∀ fn, (scanEntries [⟨name, false, some content⟩]).tempMap fn = [])
    ∧ (∀ (name content : String) (kvs : List (String × Json)),
        hasSuffix name ".json" = true →
        parseJson content = some (Json.obj kvs) →
        firstRegistryHit kvs = none →
        (scanEntries [⟨name, false, some content⟩]).unmatched = [name]
          ∧ ∀ fn, (scanEntries [⟨name, false, some content⟩]).tempMap fn = []) := by
  refine ⟨scan_append, ?_, ?_, ?_, ?_⟩
  · intro kvs
    induction kvs with
    | nil => rfl
    | cons kv rest ih =>
      obtain ⟨k, v⟩ := kv
      rw [firstRegistryHit]
      cases h : lookupFirst configTypeMap k with
      | some info => simp [h, List.filterMap_cons]
      | none => simp [h, List.filterMap_cons, ih]
  · intro name content kvs info hsuf hparse hhit
    have hstep : scanEntries [⟨name, false, some content⟩]
        = scanStep emptyScan ⟨name, false, some content⟩ := rfl
    rw [hstep]
    simp only [scanStep]
    rw [if_pos (by simp [hsuf])]
    simp only [hparse, hhit]
    refine ⟨rfl, fun fn => ?_, rfl⟩
    by_cases hfn : fn = info.FunctionName
    · simp [hfn, emptyScan]
    · simp [hfn, emptyScan]
  · intro name content hsuf hnotobj
    have hstep : scanEntries [⟨name, false, some content⟩]
        = scanStep emptyScan ⟨name, false, some content⟩ := rfl
    rw [hstep]
    simp only [scanStep]
    rw [if_pos (by simp [hsuf])]
    cases hparse : parseJson content with
    | none => exact ⟨rfl, fun fn => rfl⟩
    | some j =>
      cases j with
      | obj kvs => exact absurd hparse (hnotobj kvs)
      | null => exact ⟨rfl, fun fn => rfl⟩
      | bool b2 => exact ⟨rfl, fun fn => rfl⟩
      | num lit => exact ⟨rfl, fun fn => rfl⟩
      | str s => exact ⟨rfl, fun fn => rfl⟩
      | arr es => exact ⟨rfl, fun fn => rfl⟩
  · intro name content kvs hsuf hparse hhit
    have hstep : scanEntries [⟨name, false, some content⟩]
        = scanStep emptyScan ⟨name, false, some content⟩ := rfl
    rw [hstep]
    simp only [scanStep]
    rw [if_pos (by simp [hsuf])]
    simp only [hparse, hhit]
    exact ⟨rfl, fun fn => rfl⟩

/-- C4 witness: the per-file theorem applied to a concrete registry file,
a concrete unparseable file, and a concrete registry-free file. -/
theorem classifier_per_file_witness :
    ((scanEntries [⟨"a.json", false, some "\x7b\"log\":\x7b\x7d\x7d"⟩]).tempMap "日志"
        = ["a.json"]
      ∧ (scanEntries [⟨"a.json", false, some "\x7b\"log\":\x7b\x7d\x7d"⟩]).unmatched = [])
    ∧ (scanEntries [⟨"z.json", false, some "not json"⟩]).unmatched = ["z.json"]
    ∧ (scanEntries [⟨"f.json", false, some "\x7b\"foo\":1\x7d"⟩]).unmatched = ["f.json"] := by
  obtain ⟨hsplit, hfirst, hobj, hbad, hnoreg⟩ := classifier_per_file
  refine ⟨?_, ?_, ?_⟩
  · obtain ⟨hcf, htm, hum⟩ := hobj "a.json" "\x7b\"log\":\x7b\x7d\x7d"
      [("log", Json.obj [])] ⟨"日志", "", 1⟩ rfl rfl rfl
    refine ⟨?_, hum⟩
    rw [htm "日志"]
    rfl
  · obtain ⟨hum, _⟩ := hbad "z.json" "not json" rfl
      (fun kvs h => by exact absurd h (by intro hh; cases hh))
    exact hum
  · obtain ⟨hum, _⟩ := hnoreg "f.json" "\x7b\"foo\":1\x7d" [("foo", Json.num "1")] rfl rfl rfl
    exact hum

/-! ### C10: unreadable files -/

theorem scanStep_none_eq (st : ScanState) (name : String)
    (hsuf : hasSuffix name ".json" = true) :
    scanStep st ⟨name, false, none⟩ = ⟨st.configFiles ++ [name], st.tempMap, st.unmatched⟩ := by
  simp only [scanStep]
  rw [if_pos (by simp [hsuf])]

/-- C10: a .json directory entry whose bytes cannot be read still joins
the candidate file list of the output, but lands in neither any category
bucket nor the unmatched bucket, so no entry of the categorized view names
it — the file silently disappears from that view. -/
theorem unreadable_file_vanishes (l₁ l₂ : List DirEntry) (name : String)
    (hsuf : hasSuffix name ".json" = true)
    (hfresh : ∀ e ∈ l₁ ++ l₂, DirEntry.name e ≠ name) :
    name ∈ (classifyOutput configTypeMap (l₁ ++ ⟨name, false, none⟩ :: l₂)).2
      ∧ (∀ fn, name ∉ (scanEntries (l₁ ++ ⟨name, false, none⟩ :: l₂)).tempMap fn)
      ∧ name ∉ (scanEntries (l₁ ++ ⟨name, false, none⟩ :: l₂)).unmatched
      ∧ (∀ x ∈ (classifyOutput configTypeMap (l₁ ++ ⟨name, false, none⟩ :: l₂)).1,
          x.FileName ≠ name) := by
  have hdecomp : scanEntries (l₁ ++ (⟨name, false, none⟩ : DirEntry) :: l₂)
      = mergeScan (scanEntries l₁)
          (mergeScan (scanStep emptyScan ⟨name, false, none⟩) (scanEntries l₂)) := by
    rw [scan_append, scan_cons]
  have hstep : scanStep emptyScan ⟨name, false, none⟩
      = (⟨[name], fun _ => [], []⟩ : ScanState) := by
    rw [scanStep_none_eq emptyScan name hsuf]
    rfl
  have htm : ∀ fn, name ∉ (scanEntries (l₁ ++ (⟨name, false, none⟩ : DirEntry) :: l₂)).tempMap fn := by
    intro fn hmem
    simp only [hdecomp, hstep, mergeScan, List.nil_append] at hmem
    rcases List.mem_append.mp hmem with h | h
    · obtain ⟨e2, he2, hn⟩ := tempMap_mem_names l₁ fn name h
      exact hfresh e2 (List.mem_append_left l₂ he2) hn
    · obtain ⟨e2, he2, hn⟩ := tempMap_mem_names l₂ fn name h
      exact hfresh e2 (List.mem_append_right l₁ he2) hn
  have hum : name ∉ (scanEntries (l₁ ++ (⟨name, false, none⟩ : DirEntry) :: l₂)).unmatched := by
    intro hmem
    simp only [hdecomp, hstep, mergeScan, List.nil_append] at hmem
    rcases List.mem_append.mp hmem with h | h
    · obtain ⟨e2, he2, hn⟩ := unmatched_mem_names l₁ name h
      exact hfresh e2 (List.mem_append_left l₂ he2) hn
    · obtain ⟨e2, he2, hn⟩ := unmatched_mem_names l₂ name h
      exact hfresh e2 (List.mem_append_right l₁ he2) hn
  refine ⟨?_, htm, hum, ?_⟩
  · show name ∈ sortStrings (scanEntries (l₁ ++ (⟨name, false, none⟩ : DirEntry) :: l₂)).configFiles
    have : name ∈ (scanEntries (l₁ ++ (⟨name, false, none⟩ : DirEntry) :: l₂)).configFiles := by
      simp only [hdecomp, hstep, mergeScan]
      exact List.mem_append_right _ (List.mem_append_left _ (List.mem_singleton.mpr rfl))
    simpa [sortStrings, List.mem_insertionSort] using this
  · intro x hxmem hxname
    simp only [classifyOutput] at hxmem
    rcases List.mem_append.mp hxmem with h | h
    · obtain ⟨p, _, hfile⟩ := regPart_fileName_mem configTypeMap _ x h
      rw [hxname] at hfile
      exact htm p.2.FunctionName hfile
    · unfold otherPart at h
      rw [List.mem_map] at h
      obtain ⟨f, hf, hfx⟩ := h
      have hfum : f ∈ (scanEntries (l₁ ++ (⟨name, false, none⟩ : DirEntry) :: l₂)).unmatched := by
        simpa [sortStrings, List.mem_insertionSort] using hf
      have hxf : x.FileName = f := by rw [← hfx]
      rw [hxf] at hxname
      rw [hxname] at hfum
      exact hum hfum

/-- C10 witness: a directory with one readable registry file and one
unreadable .json file. -/
theorem unreadable_file_vanishes_witness :
    "bad.json" ∈ (classifyOutput configTypeMap
        [⟨"a.json", false, some "\x7b\"log\":\x7b\x7d\x7d"⟩, ⟨"bad.json", false, none⟩]).2
      ∧ "bad.json"
          ∉ (scanEntries
              [⟨"a.json", false, some "\x7b\"log\":\x7b\x7d\x7d"⟩, ⟨"bad.json", false, none⟩]).unmatched := by
  have h := unreadable_file_vanishes
    [⟨"a.json", false, some "\x7b\"log\":\x7b\x7d\x7d"⟩] [] "bad.json" rfl
    (by decide)
  exact ⟨h.1, h.2.2.1⟩

/-! ### Decimal rendering is injective -/

theorem digit_char_val : ∀ d : Nat, d < 10 → (Char.ofNat (48 + d)).toNat - 48 = d := by
  decide

theorem decValue_append (l : List Char) (c : Char) :
    decValue (l ++ [c]) = decValue l * 10 + (c.toNat - 48) := by
  unfold decValue
  rw [List.foldl_append]
  rfl

theorem natToDecAux_val : ∀ fuel n : Nat, n ≤ fuel → decValue (natToDecAux fuel n) = n
  | 0, n, h => by
    have hn : n = 0 := Nat.le_zero.mp h
    subst hn
    rfl
  | Nat.succ fuel, n, h => by
    rw [natToDecAux]
    by_cases hn : n = 0
    · rw [if_pos hn, hn]
      rfl
    · rw [if_neg hn, decValue_append]
      have hlt : n / 10 < n := Nat.div_lt_self (Nat.pos_of_ne_zero hn) (by norm_num)
      have hrec := natToDecAux_val fuel (n / 10) (by omega)
      rw [hrec, digit_char_val (n % 10) (Nat.mod_lt _ (by norm_num))]
      omega

theorem natToDec_val (n : Nat) : decValue (natToDec n).data = n := by
  unfold natToDec
  by_cases h : n = 0
  · rw [if_pos h, h]
    decide
  · rw [if_neg h]
    exact natToDecAux_val (n + 1) n (by omega)

theorem natToDec_inj {m n : Nat} (h : natToDec m = natToDec n) : m = n := by
  have h2 := congrArg (fun s => decValue s.data) h
  simpa only [natToDec_val] using h2

theorem string_append_right_inj (a : String) {b c : String} (h : a ++ b = a ++ c) : b = c := by
  have hd := congrArg String.data h
  simp only [String.data_append] at hd
  exact String.toList_inj.mp (List.append_cancel_left hd)

/-! ### The string order used by the sorts -/

theorem charListLt_asymm : ∀ a b : List Char, charListLt a b = true → charListLt b a = false
  | _, [], h => by simp [charListLt] at h
  | [], _ :: _, _ => rfl
  | a :: as, b :: bs, h => by
    rw [charListLt] at h
    rw [charListLt]
    by_cases hab : a < b
    · rw [if_neg (lt_asymm hab), if_pos hab]
    · rw [if_neg hab] at h
      by_cases hba : b < a
      · rw [if_pos hba] at h
        cases h
      · rw [if_neg hba] at h
        rw [if_neg hba, if_neg hab]
        exact charListLt_asymm as bs h

theorem charListLt_conn :
    ∀ a b : List Char, charListLt a b = false → charListLt b a = false → a = b
  | [], [], _, _ => rfl
  | [], _ :: _, h1, _ => by cases h1
  | _ :: _, [], _, h2 => by cases h2
  | a :: as, b :: bs, h1, h2 => by
    rw [charListLt] at h1 h2
    by_cases hab : a < b
    · rw [if_pos hab] at h1
      cases h1
    · by_cases hba : b < a
      · rw [if_pos hba] at h2
        cases h2
      · rw [if_neg hab, if_neg hba] at h1
        rw [if_neg hba, if_neg hab] at h2
        have hch : a = b := le_antisymm (not_lt.mp hba) (not_lt.mp hab)
        rw [hch, charListLt_conn as bs h1 h2]

theorem charListLt_trans :
    ∀ a b c : List Char, charListLt a b = true → charListLt b c = true → charListLt a c = true
  | _, b, [], _, h2 => by simp [charListLt] at h2
  | _, [], _ :: _, h1, _ => by simp [charListLt] at h1
  | [], _ :: _, _ :: _, _, _ => rfl
  | a :: as, b :: bs, c :: cs, h1, h2 => by
    rw [charListLt] at h1 h2
    rw [charListLt]
    by_cases hab : a < b
    · by_cases hbc : b < c
      · rw [if_pos (lt_trans hab hbc)]
      · by_cases hcb : c < b
        · rw [if_neg hbc, if_pos hcb] at h2
          cases h2
        · have hbceq : b = c := le_antisymm (not_lt.mp hcb) (not_lt.mp hbc)
          rw [if_pos (hbceq ▸ hab)]
    · by_cases hba : b < a
      · rw [if_neg hab, if_pos hba] at h1
        cases h1
      · have habeq : a = b := le_antisymm (not_lt.mp hba) (not_lt.mp hab)
        rw [if_neg hab, if_neg hba] at h1
        by_cases hbc : b < c
        · rw [if_pos (habeq ▸ hbc)]
        · by_cases hcb : c < b
          · rw [if_neg hbc, if_pos hcb] at h2
            cases h2
          · rw [if_neg hbc, if_neg hcb] at h2
            have hbceq : b = c := le_antisymm (not_lt.mp hcb) (not_lt.mp hbc)
            have hac : ¬ a < c := by rw [habeq, hbceq]; exact lt_irrefl c
            have hca : ¬ c < a := by rw [habeq, hbceq]; exact lt_irrefl c
            rw [if_neg hac, if_neg hca]
            exact charListLt_trans as bs cs h1 h2

theorem strLe_total (a b : String) : strLeP a b ∨ strLeP b a := by
  unfold strLeP strLe
  cases h : charListLt b.data a.data with
  | false =>
    left
    rfl
  | true =>
    right
    rw [charListLt_asymm _ _ h]
    rfl

theorem strLe_trans {a b c : String} (h1 : strLeP a b) (h2 : strLeP b c) : strLeP a c := by
  unfold strLeP strLe at h1 h2 ⊢
  simp only [Bool.not_eq_eq_eq_not, Bool.not_true] at h1 h2 ⊢
  by_contra hca
  rw [Bool.not_eq_false] at hca
  cases hcb : charListLt c.data b.data with
  | true => rw [hcb] at h2; cases h2
  | false =>
    cases hbc : charListLt b.data c.data with
    | true =>
      have hba := charListLt_trans b.data c.data a.data hbc hca
      rw [hba] at h1
      cases h1
    | false =>
      have heq : b.data = c.data := charListLt_conn b.data c.data hbc hcb
      rw [← heq] at hca
      rw [hca] at h1
      cases h1

theorem strLe_antisymm {a b : String} (h1 : strLeP a b) (h2 : strLeP b a) : a = b := by
  unfold strLeP strLe at h1 h2
  simp only [Bool.not_eq_eq_eq_not, Bool.not_true] at h1 h2
  exact String.toList_inj.mp (charListLt_conn a.data b.data h2 h1)

instance : IsTotal String strLeP :=
  ⟨strLe_total⟩

instance : IsTrans String strLeP :=
  ⟨fun _ _ _ => strLe_trans⟩

/-! ### The display order and its sort key -/

instance : IsTrans ConfigTypeInfo entryLeP := by
  constructor
  intro a b c hab hbc
  unfold entryLeP at *
  rcases hab with h1 | ⟨h1, h1n⟩ <;> rcases hbc with h2 | ⟨h2, h2n⟩
  · left; omega
  · left; omega
  · left; omega
  · right
    exact ⟨h1.trans h2, strLe_trans h1n h2n⟩

instance : IsTotal ConfigTypeInfo entryLeP := by
  constructor
  intro a b
  unfold entryLeP
  rcases Nat.lt_trichotomy a.Order b.Order with h | h | h
  · left; left; exact h
  · rcases strLe_total a.FunctionName b.FunctionName with hn | hn
    · left; right; exact ⟨h, hn⟩
    · right; right; exact ⟨h.symm, hn⟩
  · right; left; exact h

theorem entryLeP_key {a b : ConfigTypeInfo} (h1 : entryLeP a b) (h2 : entryLeP b a) :
    entryKey a = entryKey b := by
  unfold entryLeP at h1 h2
  unfold entryKey
  rcases h1 with h1 | ⟨ho1, hn1⟩
  · rcases h2 with h2 | ⟨ho2, hn2⟩
    · exfalso; omega
    · exfalso; omega
  · rcases h2 with h2 | ⟨ho2, hn2⟩
    · exfalso; omega
    · have hn : a.FunctionName = b.FunctionName := strLe_antisymm hn1 hn2
      rw [ho1, hn]

theorem entryGen_order (tm : String → List String) (info : ConfigTypeInfo)
    (x : ConfigTypeInfo) (hx : x ∈ entryGen tm info) : x.Order = info.Order := by
  unfold entryGen at hx
  cases hsort : sortStrings (tm info.FunctionName) with
  | nil =>
    simp only [hsort] at hx
    exact absurd hx (List.not_mem_nil x)
  | cons f rest =>
    cases rest with
    | nil =>
      simp only [hsort, List.mem_singleton] at hx
      subst hx
      rfl
    | cons f2 rest2 =>
      simp only [hsort, List.mem_map] at hx
      obtain ⟨p, _, hpx⟩ := hx
      rw [← hpx]

theorem entryGen_keys_nodup (tm : String → List String) (info : ConfigTypeInfo) :
    ((entryGen tm info).map entryKey).Nodup := by
  unfold entryGen
  cases hsort : sortStrings (tm info.FunctionName) with
  | nil => simp
  | cons f rest =>
    cases rest with
    | nil => simp
    | cons f2 rest2 =>
      rw [List.map_map]
      refine List.Nodup.map_on ?_ ?_
      · intro p hp q hq hkey
        simp only [Function.comp, entryKey] at hkey
        have hname : natToDec (p.1 + 1) = natToDec (q.1 + 1) :=
          string_append_right_inj _ (congrArg Prod.snd hkey)
        have hfst : p.1 = q.1 := by
          have := natToDec_inj hname
          omega
        obtain ⟨i, x⟩ := p
        obtain ⟨j, y⟩ := q
        simp only at hfst
        subst hfst
        have hx := List.mk_mem_enum_iff_getElem?.mp hp
        have hy := List.mk_mem_enum_iff_getElem?.mp hq
        rw [hx] at hy
        cases hy
        rfl
      · exact List.Nodup.of_map Prod.fst (List.nodup_enum_map_fst _)

theorem entriesFor_key_order :
    ∀ (iter : List (String × ConfigTypeInfo)) (tm : String → List String) (k : Nat × String),
      k ∈ (entriesFor iter tm).map entryKey → k.1 ∈ iter.map (fun p => p.2.Order) := by
  intro iter tm k hk
  rw [List.mem_map] at hk
  obtain ⟨e, he, hek⟩ := hk
  unfold entriesFor at he
  rw [List.mem_flatMap] at he
  obtain ⟨p, hp, hep⟩ := he
  rw [List.mem_map]
  refine ⟨p, hp, ?_⟩
  rw [← hek]
  exact (entryGen_order tm p.2 e hep).symm

theorem entriesFor_keys_nodup :
    ∀ (iter : List (String × ConfigTypeInfo)),
      (iter.map (fun p => p.2.Order)).Nodup →
      ∀ tm : String → List String, ((entriesFor iter tm).map entryKey).Nodup
  | [], _, tm => by simp [entriesFor]
  | p :: rest, hnd, tm => by
    rw [List.map_cons] at hnd
    have hnd2 := List.nodup_cons.mp hnd
    rw [entriesFor, List.flatMap_cons, List.map_append]
    refine List.nodup_append.mpr ⟨entryGen_keys_nodup tm p.2,
      entriesFor_keys_nodup rest hnd2.2 tm, ?_⟩
    intro k hk1 hk2
    have ho1 : k.1 = p.2.Order := by
      rw [List.mem_map] at hk1
      obtain ⟨e, he, hek⟩ := hk1
      rw [← hek]
      exact entryGen_order tm p.2 e he
    have ho2 : k.1 ∈ rest.map (fun q => q.2.Order) := entriesFor_key_order rest tm k hk2
    rw [ho1] at ho2
    exact hnd2.1 ho2

theorem eq_of_sorted_perm_nodupkeys {α : Type} {κ : Type} [DecidableEq κ]
    (key : α → κ) (le : α → α → Prop)
    (hk : ∀ a b, le a b → le b a → key a = key b) :
    ∀ (l₁ l₂ : List α), l₁.Perm l₂ → l₁.Pairwise le → l₂.Pairwise le →
      (l₁.map key).Nodup → l₁ = l₂
  | [], l₂, hp, _, _, _ => (List.Perm.eq_nil hp.symm).symm
  | a :: t₁, l₂, hp, hs₁, hs₂, hnd => by
    cases l₂ with
    | nil =>
      have := hp.length_eq
      simp at this
    | cons b t₂ =>
      have hab : a = b := by
        by_contra hne
        have hbmem : b ∈ a :: t₁ := hp.mem_iff.mpr (List.mem_cons_self b t₂)
        have hamem : a ∈ b :: t₂ := hp.mem_iff.mp (List.mem_cons_self a t₁)
        have hbt₁ : b ∈ t₁ := by
          rcases List.mem_cons.mp hbmem with h | h
          · exact absurd h.symm hne
          · exact h
        have hat₂ : a ∈ t₂ := by
          rcases List.mem_cons.mp hamem with h | h
          · exact absurd h hne
          · exact h
        have hle₁ : le a b := (List.pairwise_cons.mp hs₁).1 b hbt₁
        have hle₂ : le b a := (List.pairwise_cons.mp hs₂).1 a hat₂
        have hkey : key a = key b := hk a b hle₁ hle₂
        rw [List.map_cons] at hnd
        have hnd2 := List.nodup_cons.mp hnd
        exact hnd2.1 (by rw [hkey]; exact List.mem_map_of_mem key hbt₁)
      subst hab
      have hpt : t₁.Perm t₂ := hp.cons_inv
      rw [List.map_cons] at hnd
      have hrec := eq_of_sorted_perm_nodupkeys key le hk t₁ t₂ hpt
        (List.pairwise_cons.mp hs₁).2 (List.pairwise_cons.mp hs₂).2
        (List.nodup_cons.mp hnd).2
      rw [hrec]

/-! ### C6: classification is deterministic -/

/-- C6: classification is deterministic.  The registry is a Go map, so its
iteration order varies from run to run; for any two iteration orders of
the same registry and any fixed directory listing with fixed per-file
bytes, the classifier produces identical ordered output — the generated
entries are a permutation of each other, both runs sort them, and on the
generated entries the sort key (rank, display name) is injective, so the
unstable sort has a unique sorted result, per-file suffix numbers
included. -/
theorem classify_deterministic (iter₁ iter₂ : List (String × ConfigTypeInfo))
    (h₁ : iter₁.Perm configTypeMap) (h₂ : iter₂.Perm configTypeMap)
    (entries : List DirEntry) :
    classifyOutput iter₁ entries = classifyOutput iter₂ entries := by
  have hreg : regPart iter₁ entries = regPart iter₂ entries := by
    unfold regPart
    have hiter : iter₁.Perm iter₂ := h₁.trans h₂.symm
    have hperm : (entriesFor iter₁ (scanEntries entries).tempMap).Perm
        (entriesFor iter₂ (scanEntries entries).tempMap) :=
      List.Perm.flatMap_right _ hiter
    have hordnd : (iter₁.map (fun p => p.2.Order)).Nodup := by
      have hreg : (configTypeMap.map (fun p => p.2.Order)).Nodup := by decide
      exact (List.Perm.map _ h₁.symm).nodup hreg
    have hnd : ((entriesFor iter₁ (scanEntries entries).tempMap).map entryKey).Nodup :=
      entriesFor_keys_nodup iter₁ hordnd (scanEntries entries).tempMap
    have hsortperm : (List.insertionSort entryLeP
          (entriesFor iter₁ (scanEntries entries).tempMap)).Perm
        (List.insertionSort entryLeP (entriesFor iter₂ (scanEntries entries).tempMap)) :=
      (List.perm_insertionSort entryLeP _).trans
        (hperm.trans (List.perm_insertionSort entryLeP _).symm)
    have hndsort : ((List.insertionSort entryLeP
          (entriesFor iter₁ (scanEntries entries).tempMap)).map entryKey).Nodup :=
      ((List.perm_insertionSort entryLeP _).map entryKey).symm.nodup hnd
    exact eq_of_sorted_perm_nodupkeys entryKey entryLeP (fun a b => entryLeP_key)
      _ _ hsortperm (List.sorted_insertionSort entryLeP _)
      (List.sorted_insertionSort entryLeP _) hndsort
  unfold classifyOutput
  rw [hreg]

/-- C6 witness: reversing the registry iteration order leaves the output
on a concrete directory unchanged. -/
theorem classify_deterministic_witness :
    classifyOutput configTypeMap.reverse
        [⟨"a.json", false, some "\x7b\"log\":\x7b\x7d\x7d"⟩,
         ⟨"b.json", false, some "\x7b\"log\":\x7b\x7d\x7d"⟩]
      = classifyOutput configTypeMap
        [⟨"a.json", false, some "\x7b\"log\":\x7b\x7d\x7d"⟩,
         ⟨"b.json", false, some "\x7b\"log\":\x7b\x7d\x7d"⟩] :=
  classify_deterministic configTypeMap.reverse configTypeMap
    (List.reverse_perm configTypeMap) (List.Perm.refl configTypeMap) _

/-! ### C5: output ordering and naming -/

/-- C5: the classifier output decomposes into the registry part followed
by the unmatched part.  The registry part is ordered by ascending rank
with ties broken by lexicographic display name; every registry entry ranks
strictly below every unmatched pseudo-category; each unmatched file forms
its own pseudo-category named by the fixed 其他- prefix plus the filename
stem, with rank one past the registry size, listed in filename-sorted
order; a category holding exactly one file keeps the bare registry name,
and a category holding several shows them sorted by filename with 1-based
blank-number suffixes. -/
theorem classifier_output_order (entries : List DirEntry) :
    ((classifyOutput configTypeMap entries).1
        = regPart configTypeMap entries ++ otherPart entries)
    ∧ List.Pairwise entryLeP (regPart configTypeMap entries)
    ∧ (∀ x ∈ regPart configTypeMap entries, ∀ u ∈ otherPart entries, x.Order < u.Order)
    ∧ (∀ u ∈ otherPart entries,
        u.Order = configTypeMap.length + 1
          ∧ u.FunctionName = "其他-" ++ trimSuffixStr u.FileName ".json")
    ∧ ((otherPart entries).map (fun u => u.FileName)
          = sortStrings (scanEntries entries).unmatched
        ∧ List.Pairwise strLeP (sortStrings (scanEntries entries).unmatched))
    ∧ (∀ p ∈ configTypeMap,
        (∀ f : String,
          sortStrings ((scanEntries entries).tempMap p.2.FunctionName) = [f] →
            (⟨p.2.FunctionName, f, p.2.Order⟩ : ConfigTypeInfo)
              ∈ (classifyOutput configTypeMap entries).1)
        ∧ (∀ (i : Nat) (f : String),
            (sortStrings ((scanEntries entries).tempMap p.2.FunctionName))[i]? = some f →
            2 ≤ (sortStrings ((scanEntries entries).tempMap p.2.FunctionName)).length →
            (⟨p.2.FunctionName ++ " " ++ natToDec (i + 1), f, p.2.Order⟩ : ConfigTypeInfo)
              ∈ (classifyOutput configTypeMap entries).1)) := by
  refine ⟨rfl, List.sorted_insertionSort entryLeP _, ?_, ?_, ⟨?_, ?_⟩, ?_⟩
  · intro x hx u hu
    have hxo : x.Order ∈ configTypeMap.map (fun p => p.2.Order) := by
      have hx2 : x ∈ entriesFor configTypeMap (scanEntries entries).tempMap := by
        unfold regPart at hx
        exact (List.mem_insertionSort entryLeP).mp hx
      unfold entriesFor at hx2
      rw [List.mem_flatMap] at hx2
      obtain ⟨p, hp, hxp⟩ := hx2
      rw [List.mem_map]
      exact ⟨p, hp, (entryGen_order _ _ _ hxp).symm⟩
    have hbound : ∀ o ∈ configTypeMap.map (fun p => p.2.Order),
        o < configTypeMap.length + 1 := by decide
    have huo : u.Order = configTypeMap.length + 1 := by
      unfold otherPart at hu
      rw [List.mem_map] at hu
      obtain ⟨f, _, hfu⟩ := hu
      rw [← hfu]
    rw [huo]
    exact hbound x.Order hxo
  · intro u hu
    unfold otherPart at hu
    rw [List.mem_map] at hu
    obtain ⟨f, _, hfu⟩ := hu
    rw [← hfu]
    exact ⟨rfl, rfl⟩
  · unfold otherPart
    rw [List.map_map]
    have hid : ((fun u : ConfigTypeInfo => u.FileName)
        ∘ fun f => (⟨"其他-" ++ trimSuffixStr f ".json", f, configTypeMap.length + 1⟩
          : ConfigTypeInfo)) = id := rfl
    rw [hid, List.map_id]
  · exact List.sorted_insertionSort strLeP _
  · intro p hp
    constructor
    · intro f hsort
      show _ ∈ regPart configTypeMap entries ++ otherPart entries
      refine List.mem_append_left _ ?_
      unfold regPart
      rw [List.mem_insertionSort]
      unfold entriesFor
      rw [List.mem_flatMap]
      refine ⟨p, hp, ?_⟩
      unfold entryGen
      simp only [hsort]
      exact List.mem_singleton.mpr rfl
    · intro i f hget hlen
      cases hsortEq : sortStrings ((scanEntries entries).tempMap p.2.FunctionName) with
      | nil =>
        rw [hsortEq] at hlen
        simp at hlen
      | cons f0 rest =>
        cases rest with
        | nil =>
          rw [hsortEq] at hlen
          simp at hlen
        | cons f1 rest2 =>
          show _ ∈ regPart configTypeMap entries ++ otherPart entries
          refine List.mem_append_left _ ?_
          unfold regPart
          rw [List.mem_insertionSort]
          unfold entriesFor
          rw [List.mem_flatMap]
          refine ⟨p, hp, ?_⟩
          unfold entryGen
          simp only [hsortEq]
          rw [List.mem_map]
          refine ⟨(i, f), ?_, rfl⟩
          rw [List.mk_mem_enum_iff_getElem?]
          rw [hsortEq] at hget
          exact hget

/-- C5 witness: concrete directory with two log files and one unmatched
file; the registry part is sorted and the numbered second-category name is
present. -/
theorem classifier_output_order_witness :
    List.Pairwise entryLeP (regPart configTypeMap
      [⟨"b.json", false, some "\x7b\"log\":\x7b\x7d\x7d"⟩,
       ⟨"a.json", false, some "\x7b\"log\":\x7b\x7d\x7d"⟩,
       ⟨"z.json", false, some "\x7b\"foo\":1\x7d"⟩])
    ∧ (⟨"日志" ++ " " ++ natToDec (0 + 1), "a.json", 1⟩ : ConfigTypeInfo)
        ∈ (classifyOutput configTypeMap
          [⟨"b.json", false, some "\x7b\"log\":\x7b\x7d\x7d"⟩,
           ⟨"a.json", false, some "\x7b\"log\":\x7b\x7d\x7d"⟩,
           ⟨"z.json", false, some "\x7b\"foo\":1\x7d"⟩]).1 := by
  have h := classifier_output_order
    [⟨"b.json", false, some "\x7b\"log\":\x7b\x7d\x7d"⟩,
     ⟨"a.json", false, some "\x7b\"log\":\x7b\x7d\x7d"⟩,
     ⟨"z.json", false, some "\x7b\"foo\":1\x7d"⟩]
  refine ⟨h.2.1, ?_⟩
  exact (h.2.2.2.2.2 ("log", ⟨"日志", "", 1⟩) (by decide)).2 0 "a.json" rfl (by decide)

/-! ### Remaining witnesses -/

/-- C2 witness: the amended classification applied to a concrete comment
fragment, a concrete valid scalar, and a concrete write. -/
theorem saveFile_amended_witness :
    classifyContent "\x7b// c\n\x7d" = Json.str "\x7b// c\n\x7d"
      ∧ classifyContent "123" = Json.num "123"
      ∧ saveFile "\x7b\"a\":1\x7d" "a" "xyz"
          = (match sjsonSet (Json.obj [("a", Json.num "1")])
                (resolvePath (Json.obj [("a", Json.num "1")]) "a")
                (classifyContent "xyz") with
             | Except.error e => Except.error ("修改失败：" ++ e)
             | Except.ok updated =>
               if jsonValidStr (serialize updated) then Except.ok (serialize updated)
               else Except.error "修改后的文件内容不是合法的JSON。") := by
  obtain ⟨hinv, hval, hstruct, hpipe⟩ := saveFile_amended
  refine ⟨?_, ?_, ?_⟩
  · exact hstruct "\x7b// c\n\x7d" rfl rfl
  · exact hval "123" (Json.num "123") rfl
  · exact hpipe "\x7b\"a\":1\x7d" (Json.obj [("a", Json.num "1")]) "a" "xyz" rfl (by decide)

/-- C3 witness: creating a missing member on a concrete document, and a
concrete failing save that leaves the stored bytes unchanged. -/
theorem saveFile_error_handling_witness :
    sjsonSet (Json.obj [("a", Json.num "1")]) "b" (Json.num "2")
        = Except.ok (Json.obj [("a", Json.num "1"), ("b", Json.num "2")])
      ∧ persistAfterSave "\x7b\"a\":1\x7d" "a*b" "2" = "\x7b\"a\":1\x7d" := by
  obtain ⟨hcreate, hprop, hpersist⟩ := saveFile_error_handling
  constructor
  · exact hcreate [("a", Json.num "1")] "b" (Json.num "2") rfl rfl
  · exact hpersist "\x7b\"a\":1\x7d" "a*b" "2"
      "修改失败：wildcard characters not allowed in path" rfl

/-- C7 witness: the amended enumerator applied to a concrete drill-down
document and a concrete single-key scalar document. -/
theorem getTopKeys_amended_witness :
    getTopKeys (Json.obj [("route", Json.obj [("rules", Json.arr [])])])
        = some ⟨"route", enumChildren "route" (Json.obj [("rules", Json.arr [])])⟩
      ∧ getTopKeys (Json.obj [("log", Json.num "1")]) = some ⟨"", ["log"]⟩ := by
  obtain ⟨hscen, hdrill, hmulti, hscalar, hdotted⟩ := getTopKeys_amended
  constructor
  · exact (hdrill "route" (Json.obj [("rules", Json.arr [])]) rfl rfl).1
  · exact hscalar "log" (Json.num "1") rfl rfl

/-- C9 witness: a concrete successful non-empty-path save produces bytes
that pass the validity check, and a concrete empty-path save stores
invalid bytes verbatim. -/
theorem saveFile_valid_json_invariant_witness :
    jsonValidStr "\x7b\"a\":2\x7d" = true
      ∧ saveFile "\x7b\"a\":1\x7d" "" "not json" = Except.ok "not json" := by
  obtain ⟨hguard, hverbatim⟩ := saveFile_valid_json_invariant
  constructor
  · exact hguard "\x7b\"a\":1\x7d" "a" "2" "\x7b\"a\":2\x7d" (by decide) rfl
  · exact hverbatim "\x7b\"a\":1\x7d" "not json"

end SbEditor
